import Mathlib

/-!
Verification of the tag-rewriting script `scripts/fix_json_tags.py`.

The script scans text for substrings matching the regular expression
`json:"([^"]*)"`, splits an optional `,omitempty` marker off the quoted
value (Python: `old_value.replace(",omitempty", "")`, which removes every
occurrence), looks the base up in a hardcoded snake_case-to-camelCase
table, and reassembles the tag.  `main` globs `internal/models/*.go`,
exits 1 when nothing matches, processes the sorted file list one by one,
and exits 1 at the first read/write failure.

The embedding below works on `List Char`.  The scanner is written with a
fuel parameter (structural recursion, so the kernel can evaluate it on
concrete inputs); `fixTags` instantiates the fuel with the input length,
and a fuel-irrelevance lemma provides clean unfolding equations.
-/

namespace FixTagsSpec

/-- The characters of the fixed tag-pattern opening `json:"` (the literal
part of the regex `json:"([^"]*)"`). -/
def tagKey : List Char := ['j', 's', 'o', 'n', ':', '"']

/-- The option marker `,omitempty`. -/
def omitMarker : List Char := [',', 'o', 'm', 'i', 't', 'e', 'm', 'p', 't', 'y']

/-- Character-list prefix test (used for both the regex-literal match and
Python's substring containment test). -/
def isPre : List Char → List Char → Bool
  | [], _ => true
  | _ :: _, [] => false
  | a :: as, b :: bs => a == b && isPre as bs

/-- Mirrors Python's containment test `",omitempty" in old_value`. -/
def containsOmit : List Char → Bool
  | [] => false
  | c :: cs => isPre omitMarker (c :: cs) || containsOmit cs

/-- Fuelled worker for `removeOmit`; the fuel is only for structural
recursion and is irrelevant once it is at least the input length. -/
def removeOmitF : Nat → List Char → List Char
  | 0, l => l
  | _ + 1, [] => []
  | f + 1, c :: cs =>
    if isPre omitMarker (c :: cs) then removeOmitF f (List.drop 9 cs)
    else c :: removeOmitF f cs

/-- Mirrors Python's `old_value.replace(",omitempty", "")`: every
non-overlapping occurrence of `,omitempty` is removed, scanning left to
right. -/
def removeOmit (l : List Char) : List Char := removeOmitF l.length l

/-- Association-list lookup, mirroring the Python dict lookup
`replacements[base_value]` (keys of the source dict are distinct). -/
def lookupTab : List (List Char × List Char) → List Char → Option (List Char)
  | [], _ => none
  | p :: ps, k => if p.1 = k then some p.2 else lookupTab ps k

/-- The `replace_tag` closure of `fix_json_tags`: given the captured group
`old_value`, produce the full replacement text for the whole match.  The
table is a parameter, matching the spec's `rewrite(text, table)` contract;
the script instantiates it with the hardcoded `replacements` dict. -/
def replace_tag (tbl : List (List Char × List Char)) (v : List Char) : List Char :=
  let options := if containsOmit v then omitMarker else []
  let base := if containsOmit v then removeOmit v else v
  match lookupTab tbl base with
  | some nv => tagKey ++ nv ++ options ++ ['"']
  | none => tagKey ++ v ++ ['"']

/-- Split a character list at the first `"`: returns the quote-free part
before it and the part after it, or `none` when there is no `"`.  This is
how the regex `json:"([^"]*)"` captures its group once the literal
`json:"` has matched. -/
def splitAtQuote : List Char → Option (List Char × List Char)
  | [] => none
  | c :: cs =>
    if c = '"' then some ([], cs)
    else
      match splitAtQuote cs with
      | some (v, rest) => some (c :: v, rest)
      | none => none

/-- Fuelled scanner for `re.sub(pattern, replace_tag, content)`: find each
leftmost, non-overlapping match of `json:"([^"]*)"`, emit `replace_tag`
for it, and continue after the match; all other characters are copied
verbatim.  The fuel only serves structural recursion and is irrelevant
once it is at least the input length. -/
def fixTagsF (tbl : List (List Char × List Char)) : Nat → List Char → List Char
  | 0, l => l
  | _ + 1, [] => []
  | f + 1, c :: cs =>
    if isPre tagKey (c :: cs) then
      match splitAtQuote (List.drop 6 (c :: cs)) with
      | some (v, rest) => replace_tag tbl v ++ fixTagsF tbl f rest
      | none => c :: fixTagsF tbl f cs
    else c :: fixTagsF tbl f cs

/-- The body of `fix_json_tags` on character lists. -/
def fixTags (tbl : List (List Char × List Char)) (l : List Char) : List Char :=
  fixTagsF tbl l.length l

/-- The hardcoded snake_case-to-camelCase dict `replacements` of the
script, in source order. -/
def replacements : List (String × String) := [
  ("agent_id", "agentId"),
  ("allowed_ip_ranges", "allowedIpRanges"),
  ("assigned_to", "assignedTo"),
  ("auto_resolution_strategy", "autoResolutionStrategy"),
  ("auto_resolution_winner", "autoResolutionWinner"),
  ("avg_latency_ms", "avgLatencyMs"),
  ("carrier_id", "carrierId"),
  ("config_json", "configJson"),
  ("conflict_type", "conflictType"),
  ("country_id", "countryId"),
  ("created_at", "createdAt"),
  ("delivered_at", "deliveredAt"),
  ("denied_params", "deniedParams"),
  ("device_id", "deviceId"),
  ("error_message", "errorMessage"),
  ("entity_type", "entityType"),
  ("entity_id", "entityId"),
  ("execution_time_ms", "executionTimeMs"),
  ("failed_login_attempts", "failedLoginAttempts"),
  ("function_name", "functionName"),
  ("is_active", "isActive"),
  ("is_company", "isCompany"),
  ("is_enabled", "isEnabled"),
  ("is_refund_requested", "isRefundRequested"),
  ("is_verified", "isVerified"),
  ("item_id", "itemId"),
  ("last_activity_at", "lastActivityAt"),
  ("last_failure_at", "lastFailureAt"),
  ("last_full_sync_at", "lastFullSyncAt"),
  ("last_login", "lastLogin"),
  ("last_request_at", "lastRequestAt"),
  ("last_seen_at", "lastSeenAt"),
  ("last_success_at", "lastSuccessAt"),
  ("last_sync_at", "lastSyncAt"),
  ("last_sync_status", "lastSyncStatus"),
  ("last_synced_at", "lastSyncedAt"),
  ("last_updated", "lastUpdated"),
  ("location_dest_id", "locationDestId"),
  ("location_id", "locationId"),
  ("lot_id", "lotId"),
  ("max_rate_per_min", "maxRatePerMin"),
  ("max_tokens_per_day", "maxTokensPerDay"),
  ("mapped_location_id", "mappedLocationId"),
  ("picking_delivery_id", "pickingDeliveryId"),
  ("picking_id", "pickingId"),
  ("picking_type_id", "pickingTypeId"),
  ("package_type_id", "packageTypeId"),
  ("package_id", "packageId"),
  ("partner_id", "partnerId"),
  ("preferred_language", "preferredLanguage"),
  ("product_id", "productId"),
  ("records_conflicts", "recordsConflicts"),
  ("records_synced", "recordsSynced"),
  ("remote_data", "remoteData"),
  ("remote_metadata", "remoteMetadata"),
  ("request_data", "requestData"),
  ("require_approval", "requireApproval"),
  ("resolved_by", "resolvedBy"),
  ("resolved_at", "resolvedAt"),
  ("response_data", "responseData"),
  ("result_package_id", "resultPackageId"),
  ("retry_count", "retryCount"),
  ("rma_number", "rmaNumber"),
  ("rma_reason", "rmaReason"),
  ("rma_request_id", "rmaRequestId"),
  ("scheduled_at", "scheduledAt"),
  ("scheduled_date", "scheduledDate"),
  ("shipped_at", "shippedAt"),
  ("sort_order", "sortOrder"),
  ("source_instance", "sourceInstance"),
  ("started_at", "startedAt"),
  ("completed_at", "completedAt"),
  ("status_code", "statusCode"),
  ("sync_duration_ms", "syncDurationMs"),
  ("target_instance", "targetInstance"),
  ("technician_id", "technicianId"),
  ("total_tokens_used", "totalTokensUsed"),
  ("tracking_number", "trackingNumber"),
  ("updated_at", "updatedAt"),
  ("warehouse_id", "warehouseId"),
  ("window_start", "windowStart")]

/-- The rename table at character-list level. -/
def table : List (List Char × List Char) :=
  replacements.map (fun p => (p.1.data, p.2.data))

/-- `fix_json_tags` of the script: rewrite all `json:"..."` tags of a
text using the hardcoded table. -/
def fix_json_tags (s : String) : String := String.mk (fixTags table s.data)

/-- The spec's `rewrite(text, table) -> (newText, changed)` contract as
realised by the script: the new text together with the changed flag the
caller computes as `new_content != content`. -/
def rewrite (s : String) : String × Bool := (fix_json_tags s, fix_json_tags s != s)

/-! ### Basic facts about the prefix test and the quote splitter -/

theorem isPre_sound : ∀ p l : List Char, isPre p l = true → ∃ r, l = p ++ r := by
  intro p
  induction p with
  | nil => intro l _; exact ⟨l, rfl⟩
  | cons a as ih =>
    intro l h
    cases l with
    | nil => simp [isPre] at h
    | cons b bs =>
      simp only [isPre, Bool.and_eq_true, beq_iff_eq] at h
      obtain ⟨r, hr⟩ := ih bs h.2
      exact ⟨r, by simp [h.1, hr]⟩

theorem isPre_append : ∀ p r : List Char, isPre p (p ++ r) = true := by
  intro p
  induction p with
  | nil => intro r; rfl
  | cons a as ih => intro r; simp [isPre, ih]

theorem isPre_of_eq_append {p l r : List Char} (h : l = p ++ r) : isPre p l = true := by
  subst h; exact isPre_append p r

theorem splitAtQuote_sound :
    ∀ l v rest, splitAtQuote l = some (v, rest) → l = v ++ '"' :: rest ∧ '"' ∉ v := by
  intro l
  induction l with
  | nil => intro v rest h; simp [splitAtQuote] at h
  | cons c cs ih =>
    intro v rest h
    by_cases hc : c = '"'
    · subst hc
      have h0 : splitAtQuote ('"' :: cs) = some ([], cs) := by simp [splitAtQuote]
      have h' : (some (([] : List Char), cs) : Option (List Char × List Char)) =
          some (v, rest) := h0.symm.trans h
      have hv : ([] : List Char) = v := congrArg (fun o => (o.getD ([], [])).1) h'
      have hrest : cs = rest := congrArg (fun o => (o.getD ([], [])).2) h'
      subst hv; subst hrest
      exact ⟨rfl, by simp⟩
    · simp only [splitAtQuote, if_neg hc] at h
      cases hsp : splitAtQuote cs with
      | none => rw [hsp] at h; simp at h
      | some p =>
        obtain ⟨v', rest'⟩ := p
        rw [hsp] at h
        simp only [Option.some.injEq, Prod.mk.injEq] at h
        obtain ⟨hv, hrest⟩ := h
        obtain ⟨hcs, hnot⟩ := ih v' rest' hsp
        subst hv; subst hrest
        refine ⟨by simp [hcs], ?_⟩
        intro hmem
        rcases List.mem_cons.1 hmem with h1 | h1
        · exact hc h1.symm
        · exact hnot h1

theorem splitAtQuote_none : ∀ l : List Char, '"' ∉ l → splitAtQuote l = none := by
  intro l
  induction l with
  | nil => intro _; rfl
  | cons c cs ih =>
    intro h
    have hc : c ≠ '"' := fun hc => h (hc ▸ List.mem_cons_self c cs)
    have hcs : '"' ∉ cs := fun hm => h (List.mem_cons_of_mem c hm)
    simp [splitAtQuote, hc, ih hcs]

theorem splitAtQuote_complete :
    ∀ v rest : List Char, '"' ∉ v → splitAtQuote (v ++ '"' :: rest) = some (v, rest) := by
  intro v
  induction v with
  | nil => intro rest _; simp [splitAtQuote]
  | cons c cs ih =>
    intro rest h
    have hc : c ≠ '"' := fun hc => h (hc ▸ List.mem_cons_self c cs)
    have hcs : '"' ∉ cs := fun hm => h (List.mem_cons_of_mem c hm)
    simp [splitAtQuote, hc, ih rest hcs]

/-! ### Fuel irrelevance and unfolding equations for the scanner -/

theorem fixTagsF_fuel (tbl : List (List Char × List Char)) :
    ∀ f₁ f₂ l, l.length ≤ f₁ → l.length ≤ f₂ → fixTagsF tbl f₁ l = fixTagsF tbl f₂ l := by
  intro f₁
  induction f₁ with
  | zero =>
    intro f₂ l h1 _
    have : l = [] := List.eq_nil_of_length_eq_zero (Nat.le_zero.1 h1)
    subst this
    cases f₂ <;> rfl
  | succ f ih =>
    intro f₂ l h1 h2
    cases l with
    | nil => cases f₂ <;> rfl
    | cons c cs =>
      cases f₂ with
      | zero => simp at h2
      | succ f₂' =>
        simp only [fixTagsF]
        by_cases hk : isPre tagKey (c :: cs) = true
        · rw [if_pos hk, if_pos hk]
          cases hsp : splitAtQuote (List.drop 6 (c :: cs)) with
          | none =>
            have hcs : cs.length ≤ f := Nat.le_of_succ_le_succ h1
            have hcs2 : cs.length ≤ f₂' := Nat.le_of_succ_le_succ h2
            exact congrArg (c :: ·) (ih f₂' cs hcs hcs2)
          | some p =>
            obtain ⟨v, rest⟩ := p
            have hsub := splitAtQuote_sound _ _ _ hsp
            have hlen : rest.length ≤ (List.drop 6 (c :: cs)).length := by
              rw [hsub.1]; simp; omega
            have hdrop : (List.drop 6 (c :: cs)).length ≤ cs.length := by
              simp [List.length_drop]
            have h1' : rest.length ≤ f := le_trans (le_trans hlen hdrop) (Nat.le_of_succ_le_succ h1)
            have h2' : rest.length ≤ f₂' := le_trans (le_trans hlen hdrop) (Nat.le_of_succ_le_succ h2)
            exact congrArg (replace_tag tbl v ++ ·) (ih f₂' rest h1' h2')
        · rw [if_neg hk, if_neg hk,
            ih f₂' cs (Nat.le_of_succ_le_succ h1) (Nat.le_of_succ_le_succ h2)]

theorem fixTags_nil (tbl : List (List Char × List Char)) : fixTags tbl [] = [] := rfl

theorem fixTags_cons_noKey {c : Char} {cs : List Char}
    (tbl : List (List Char × List Char)) (h : isPre tagKey (c :: cs) = false) :
    fixTags tbl (c :: cs) = c :: fixTags tbl cs := by
  simp [fixTags, fixTagsF, h]

theorem fixTags_cons_noQuote {c : Char} {cs : List Char}
    (tbl : List (List Char × List Char)) (h : isPre tagKey (c :: cs) = true)
    (hsp : splitAtQuote (List.drop 6 (c :: cs)) = none) :
    fixTags tbl (c :: cs) = c :: fixTags tbl cs := by
  show fixTagsF tbl (cs.length + 1) (c :: cs) = _
  simp only [fixTagsF, if_pos h, hsp]
  rfl

theorem fixTags_cons_match {l v rest : List Char}
    (tbl : List (List Char × List Char)) (h : isPre tagKey l = true)
    (hsp : splitAtQuote (List.drop 6 l) = some (v, rest)) :
    fixTags tbl l = replace_tag tbl v ++ fixTags tbl rest := by
  cases l with
  | nil => simp [isPre, tagKey] at h
  | cons c cs =>
    have hsub := splitAtQuote_sound _ _ _ hsp
    have hlen : rest.length ≤ cs.length := by
      have h1 : rest.length ≤ (List.drop 6 (c :: cs)).length := by
        rw [hsub.1]; simp; omega
      have h2 : (List.drop 6 (c :: cs)).length ≤ cs.length := by
        simp [List.length_drop]
      exact le_trans h1 h2
    show fixTagsF tbl (cs.length + 1) (c :: cs) = _
    simp only [fixTagsF, if_pos h, hsp]
    rw [fixTagsF_fuel tbl cs.length rest.length rest hlen (le_refl _)]
    rfl

/-! ### The option marker: containment and removal -/

theorem removeOmitF_fuel :
    ∀ f₁ f₂ l, l.length ≤ f₁ → l.length ≤ f₂ → removeOmitF f₁ l = removeOmitF f₂ l := by
  intro f₁
  induction f₁ with
  | zero =>
    intro f₂ l h1 _
    have : l = [] := List.eq_nil_of_length_eq_zero (Nat.le_zero.1 h1)
    subst this
    cases f₂ <;> rfl
  | succ f ih =>
    intro f₂ l h1 h2
    cases l with
    | nil => cases f₂ <;> rfl
    | cons c cs =>
      cases f₂ with
      | zero => simp at h2
      | succ f₂' =>
        simp only [removeOmitF]
        by_cases hk : isPre omitMarker (c :: cs) = true
        · rw [if_pos hk, if_pos hk]
          have hd : (List.drop 9 cs).length ≤ cs.length := by
            simp [List.length_drop]
          exact ih f₂' _ (le_trans hd (Nat.le_of_succ_le_succ h1))
            (le_trans hd (Nat.le_of_succ_le_succ h2))
        · rw [if_neg hk, if_neg hk]
          exact congrArg (c :: ·)
            (ih f₂' cs (Nat.le_of_succ_le_succ h1) (Nat.le_of_succ_le_succ h2))

theorem removeOmit_cons_pre {c : Char} {cs : List Char}
    (h : isPre omitMarker (c :: cs) = true) :
    removeOmit (c :: cs) = removeOmit (List.drop 9 cs) := by
  show removeOmitF (cs.length + 1) (c :: cs) = _
  simp only [removeOmitF, if_pos h]
  exact removeOmitF_fuel _ _ _ (by simp [List.length_drop]) (le_refl _)

theorem removeOmit_cons_ne {c : Char} {cs : List Char} (h : c ≠ ',') :
    removeOmit (c :: cs) = c :: removeOmit cs := by
  have hpre : isPre omitMarker (c :: cs) = false := by
    simp only [omitMarker, isPre, Bool.and_eq_false_iff]
    exact Or.inl (by simp [beq_eq_false_iff_ne]; exact fun hcc => h hcc.symm)
  show removeOmitF (cs.length + 1) (c :: cs) = _
  simp only [removeOmitF, hpre]
  rfl

theorem removeOmit_marker (rest : List Char) :
    removeOmit (omitMarker ++ rest) = removeOmit rest := by
  have hpre : isPre omitMarker (omitMarker ++ rest) = true := isPre_append _ _
  have hcons : omitMarker ++ rest =
      ',' :: (['o', 'm', 'i', 't', 'e', 'm', 'p', 't', 'y'] ++ rest) := rfl
  rw [hcons]
  rw [hcons] at hpre
  rw [removeOmit_cons_pre hpre]
  have hdrop : List.drop 9 ((['o', 'm', 'i', 't', 'e', 'm', 'p', 't', 'y'] : List Char) ++ rest) =
      rest := rfl
  rw [hdrop]

theorem removeOmit_no_comma : ∀ w : List Char, ',' ∉ w → removeOmit w = w := by
  intro w
  induction w with
  | nil => intro _; rfl
  | cons c cs ih =>
    intro h
    have hc : c ≠ ',' := fun hc => h (hc ▸ List.mem_cons_self c cs)
    have hcs : ',' ∉ cs := fun hm => h (List.mem_cons_of_mem c hm)
    rw [removeOmit_cons_ne hc, ih hcs]

theorem removeOmit_append_marker : ∀ w : List Char, ',' ∉ w →
    removeOmit (w ++ omitMarker) = w := by
  intro w
  induction w with
  | nil => intro _; rfl
  | cons c cs ih =>
    intro h
    have hc : c ≠ ',' := fun hc => h (hc ▸ List.mem_cons_self c cs)
    have hcs : ',' ∉ cs := fun hm => h (List.mem_cons_of_mem c hm)
    rw [List.cons_append, removeOmit_cons_ne hc, ih hcs]

theorem containsOmit_append_marker : ∀ w : List Char, containsOmit (w ++ omitMarker) = true := by
  intro w
  induction w with
  | nil => decide
  | cons c cs ih => simp [containsOmit, ih]

theorem containsOmit_no_comma : ∀ w : List Char, ',' ∉ w → containsOmit w = false := by
  intro w
  induction w with
  | nil => intro _; rfl
  | cons c cs ih =>
    intro h
    have hc : c ≠ ',' := fun hc => h (hc ▸ List.mem_cons_self c cs)
    have hcs : ',' ∉ cs := fun hm => h (List.mem_cons_of_mem c hm)
    have hpre : isPre omitMarker (c :: cs) = false := by
      simp only [omitMarker, isPre, Bool.and_eq_false_iff]
      exact Or.inl (by simp [beq_eq_false_iff_ne]; exact fun hcc => hc hcc.symm)
    simp [containsOmit, hpre, ih hcs]

/-! ### Lookup -/

theorem lookupTab_mem : ∀ (tbl : List (List Char × List Char)) k v,
    lookupTab tbl k = some v → (k, v) ∈ tbl := by
  intro tbl
  induction tbl with
  | nil => intro k v h; simp [lookupTab] at h
  | cons p ps ih =>
    intro k v h
    by_cases hk : p.1 = k
    · rw [lookupTab, if_pos hk] at h
      have hv : p.2 = v := Option.some.inj h
      have hp : p = (k, v) := Prod.ext hk hv
      rw [← hp]
      exact List.mem_cons_self p ps
    · rw [lookupTab, if_neg hk] at h
      exact List.mem_cons_of_mem p (ih k v h)

theorem lookupTab_of_mem : ∀ (tbl : List (List Char × List Char)) k v,
    (k, v) ∈ tbl → (tbl.map Prod.fst).Nodup → lookupTab tbl k = some v := by
  intro tbl
  induction tbl with
  | nil => intro k v h _; simp at h
  | cons p ps ih =>
    intro k v h hnd
    have hnd' : p.1 ∉ ps.map Prod.fst ∧ (ps.map Prod.fst).Nodup := by
      rw [List.map_cons] at hnd
      exact ⟨(List.nodup_cons.1 hnd).1, (List.nodup_cons.1 hnd).2⟩
    rcases List.mem_cons.1 h with h1 | h1
    · have hp : p = (k, v) := h1.symm
      subst hp
      rw [lookupTab, if_pos rfl]
    · have hmem : k ∈ ps.map Prod.fst := List.mem_map_of_mem Prod.fst h1
      have hk : p.1 ≠ k := fun hke => hnd'.1 (hke ▸ hmem)
      rw [lookupTab, if_neg hk]
      exact ih k v h1 hnd'.2

/-! ### Decidable facts about the hardcoded table -/

set_option maxRecDepth 8000 in
set_option maxHeartbeats 1000000 in
theorem table_vals : ∀ p ∈ table, ',' ∉ p.2 ∧ '"' ∉ p.2 ∧ lookupTab table p.2 = none := by
  decide

set_option maxRecDepth 8000 in
set_option maxHeartbeats 1000000 in
theorem table_keys : ∀ p ∈ table, ',' ∉ p.1 ∧ '"' ∉ p.1 := by decide

set_option maxRecDepth 8000 in
set_option maxHeartbeats 1000000 in
theorem table_no_self : ∀ p ∈ table, p.2 ≠ p.1 := by decide

set_option maxRecDepth 8000 in
set_option maxHeartbeats 1000000 in
theorem table_nodup : (table.map Prod.fst).Nodup := by decide

/-! ### Shape of `replace_tag` -/

theorem replace_tag_of_none {tbl : List (List Char × List Char)} {v : List Char}
    (h : lookupTab tbl (if containsOmit v then removeOmit v else v) = none) :
    replace_tag tbl v = tagKey ++ v ++ ['"'] := by
  simp [replace_tag, h]

theorem replace_tag_of_some {tbl : List (List Char × List Char)} {v nv : List Char}
    (h : lookupTab tbl (if containsOmit v then removeOmit v else v) = some nv) :
    replace_tag tbl v = tagKey ++ nv ++ (if containsOmit v then omitMarker else []) ++ ['"'] := by
  simp [replace_tag, h]

theorem replace_tag_head (tbl : List (List Char × List Char)) (v : List Char) :
    ∃ t, replace_tag tbl v = 'j' :: t := by
  cases h : lookupTab tbl (if containsOmit v then removeOmit v else v) with
  | none =>
    refine ⟨'s' :: 'o' :: 'n' :: ':' :: '"' :: (v ++ ['"']), ?_⟩
    rw [replace_tag_of_none h]
    rfl
  | some nv =>
    refine ⟨'s' :: 'o' :: 'n' :: ':' :: '"' ::
      (nv ++ (if containsOmit v then omitMarker else []) ++ ['"']), ?_⟩
    rw [replace_tag_of_some h]
    rfl

/-! ### Quote-free text is left alone -/

theorem quote_mem_tagKey : '"' ∈ tagKey := by decide

theorem fixTags_no_quote (tbl : List (List Char × List Char)) :
    ∀ l, '"' ∉ l → fixTags tbl l = l := by
  intro l
  induction l with
  | nil => intro _; rfl
  | cons c cs ih =>
    intro h
    have hcs : '"' ∉ cs := fun hm => h (List.mem_cons_of_mem c hm)
    have hk : isPre tagKey (c :: cs) = false := by
      by_contra hkk
      have hkk' : isPre tagKey (c :: cs) = true := by
        cases hv : isPre tagKey (c :: cs)
        · exact absurd hv hkk
        · rfl
      obtain ⟨r, hr⟩ := isPre_sound _ _ hkk'
      exact h (hr ▸ List.mem_append_left r quote_mem_tagKey)
    rw [fixTags_cons_noKey tbl hk, ih hcs]

theorem fixTags_tagKey_no_close (tbl : List (List Char × List Char)) {r : List Char}
    (h : '"' ∉ r) : fixTags tbl (tagKey ++ r) = tagKey ++ r := by
  have hpre : isPre tagKey (tagKey ++ r) = true := isPre_append _ _
  have hsp : splitAtQuote (List.drop 6 (tagKey ++ r)) = none := by
    have hd : List.drop 6 (tagKey ++ r) = r := rfl
    rw [hd]
    exact splitAtQuote_none r h
  have h0 : tagKey ++ r = 'j' :: ('s' :: 'o' :: 'n' :: ':' :: '"' :: r) := rfl
  rw [h0] at hpre hsp
  rw [h0, fixTags_cons_noQuote tbl hpre hsp]
  rw [show fixTags tbl ('s' :: 'o' :: 'n' :: ':' :: '"' :: r) =
    's' :: fixTags tbl ('o' :: 'n' :: ':' :: '"' :: r) from fixTags_cons_noKey tbl rfl]
  rw [show fixTags tbl ('o' :: 'n' :: ':' :: '"' :: r) =
    'o' :: fixTags tbl ('n' :: ':' :: '"' :: r) from fixTags_cons_noKey tbl rfl]
  rw [show fixTags tbl ('n' :: ':' :: '"' :: r) =
    'n' :: fixTags tbl (':' :: '"' :: r) from fixTags_cons_noKey tbl rfl]
  rw [show fixTags tbl (':' :: '"' :: r) =
    ':' :: fixTags tbl ('"' :: r) from fixTags_cons_noKey tbl rfl]
  rw [show fixTags tbl ('"' :: r) =
    '"' :: fixTags tbl r from fixTags_cons_noKey tbl rfl]
  rw [fixTags_no_quote tbl r h]

/-! ### Reading the scanner's output back -/

theorem fixTags_head_ne {tbl : List (List Char × List Char)} {l : List Char} {d : Char}
    {y : List Char} (h : fixTags tbl l = d :: y) (hd : d ≠ 'j') :
    ∃ l', l = d :: l' ∧ y = fixTags tbl l' := by
  cases l with
  | nil => rw [fixTags_nil] at h; exact absurd h (by simp)
  | cons c cs =>
    by_cases hk : isPre tagKey (c :: cs) = true
    · cases hsp : splitAtQuote (List.drop 6 (c :: cs)) with
      | some p =>
        obtain ⟨v, rest⟩ := p
        rw [fixTags_cons_match tbl hk hsp] at h
        obtain ⟨t, ht⟩ := replace_tag_head tbl v
        rw [ht] at h
        simp only [List.cons_append] at h
        injection h with h1 _
        exact absurd h1.symm hd
      | none =>
        rw [fixTags_cons_noQuote tbl hk hsp] at h
        injection h with h1 h2
        exact ⟨cs, by rw [h1], h2.symm⟩
    · have hk' : isPre tagKey (c :: cs) = false := by
        cases hv : isPre tagKey (c :: cs)
        · rfl
        · exact absurd hv hk
      rw [fixTags_cons_noKey tbl hk'] at h
      injection h with h1 h2
      exact ⟨cs, by rw [h1], h2.symm⟩

theorem tagKey_of_fix {tbl : List (List Char × List Char)} {c : Char} {cs : List Char}
    (h : isPre tagKey (c :: fixTags tbl cs) = true) : isPre tagKey (c :: cs) = true := by
  obtain ⟨r, hr⟩ := isPre_sound _ _ h
  rw [show tagKey ++ r = 'j' :: 's' :: 'o' :: 'n' :: ':' :: '"' :: r from rfl] at hr
  injection hr with hc h1
  obtain ⟨cs1, hcs1, hy1⟩ := fixTags_head_ne h1 (by decide)
  obtain ⟨cs2, hcs2, hy2⟩ := fixTags_head_ne hy1.symm (by decide)
  obtain ⟨cs3, hcs3, hy3⟩ := fixTags_head_ne hy2.symm (by decide)
  obtain ⟨cs4, hcs4, hy4⟩ := fixTags_head_ne hy3.symm (by decide)
  obtain ⟨cs5, hcs5, _⟩ := fixTags_head_ne hy4.symm (by decide)
  subst hc
  subst hcs1
  subst hcs2
  subst hcs3
  subst hcs4
  subst hcs5
  rfl

/-! ### Stability of output tags under the hardcoded table -/

theorem bool_eq_false {b : Bool} (h : ¬ b = true) : b = false := by
  cases b
  · rfl
  · exact absurd rfl h

theorem quote_not_mem_omitMarker : '"' ∉ omitMarker := by decide

theorem splitAtQuote_isSome : ∀ l : List Char, '"' ∈ l → splitAtQuote l ≠ none := by
  intro l
  induction l with
  | nil => intro h; simp at h
  | cons c cs ih =>
    intro h
    by_cases hc : c = '"'
    · simp [splitAtQuote, hc]
    · have hm : '"' ∈ cs := by
        rcases List.mem_cons.1 h with h1 | h1
        · exact absurd h1.symm hc
        · exact h1
      cases hsp : splitAtQuote cs with
      | none => exact absurd hsp (ih hm)
      | some p => simp [splitAtQuote, hc, hsp]

theorem replace_tag_stable {v : List Char} (hv : '"' ∉ v) :
    ∃ w, replace_tag table v = tagKey ++ w ++ ['"'] ∧ '"' ∉ w ∧
      replace_tag table w = tagKey ++ w ++ ['"'] := by
  cases hlk : lookupTab table (if containsOmit v then removeOmit v else v) with
  | none => exact ⟨v, replace_tag_of_none hlk, hv, replace_tag_of_none hlk⟩
  | some nv =>
    have hmem := lookupTab_mem _ _ _ hlk
    have hfacts := table_vals _ hmem
    by_cases hco : containsOmit v = true
    · refine ⟨nv ++ omitMarker, ?_, ?_, ?_⟩
      · rw [replace_tag_of_some hlk, if_pos hco]
        simp
      · intro hm
        rcases List.mem_append.1 hm with h1 | h1
        · exact hfacts.2.1 h1
        · exact quote_not_mem_omitMarker h1
      · have hco2 : containsOmit (nv ++ omitMarker) = true := containsOmit_append_marker nv
        have hrm : removeOmit (nv ++ omitMarker) = nv := removeOmit_append_marker nv hfacts.1
        have hlk2 : lookupTab table
            (if containsOmit (nv ++ omitMarker) then removeOmit (nv ++ omitMarker)
             else nv ++ omitMarker) = none := by
          rw [if_pos hco2, hrm]
          exact hfacts.2.2
        exact replace_tag_of_none hlk2
    · have hco' : containsOmit v = false := bool_eq_false hco
      refine ⟨nv, ?_, hfacts.2.1, ?_⟩
      · rw [replace_tag_of_some hlk, hco']
        simp
      · have hco2 : containsOmit nv = false := containsOmit_no_comma nv hfacts.1
        have hlk2 : lookupTab table (if containsOmit nv then removeOmit nv else nv) = none := by
          rw [hco2]
          simp
          exact hfacts.2.2
        exact replace_tag_of_none hlk2

/-! ### Idempotence of the scanner on the hardcoded table -/

theorem fixTags_fix_aux : ∀ n (l : List Char), l.length ≤ n →
    fixTags table (fixTags table l) = fixTags table l := by
  intro n
  induction n with
  | zero =>
    intro l h
    have : l = [] := List.eq_nil_of_length_eq_zero (Nat.le_zero.1 h)
    subst this
    rfl
  | succ n ih =>
    intro l hlen
    cases l with
    | nil => rfl
    | cons c cs =>
      by_cases hk : isPre tagKey (c :: cs) = true
      · cases hsp : splitAtQuote (List.drop 6 (c :: cs)) with
        | none =>
          obtain ⟨r, hr⟩ := isPre_sound _ _ hk
          have hrd : List.drop 6 (c :: cs) = r := by rw [hr]; rfl
          have hq : '"' ∉ r := by
            intro hm
            exact splitAtQuote_isSome r hm (hrd ▸ hsp)
          have hfix : fixTags table (c :: cs) = c :: cs := by
            rw [hr]
            exact fixTags_tagKey_no_close table hq
          rw [hfix, hfix]
        | some p =>
          obtain ⟨v, rest⟩ := p
          obtain ⟨hdec, hqv⟩ := splitAtQuote_sound _ _ _ hsp
          have heq1 : fixTags table (c :: cs) = replace_tag table v ++ fixTags table rest :=
            fixTags_cons_match table hk hsp
          obtain ⟨w, hw1, hw2, hw3⟩ := replace_tag_stable hqv
          have hrest : rest.length ≤ n := by
            have h1 : (List.drop 6 (c :: cs)).length ≤ cs.length := by
              simp [List.length_drop]
            have h2 : rest.length < (List.drop 6 (c :: cs)).length := by
              rw [hdec]
              simp [List.length_append]
              omega
            have h3 : cs.length + 1 ≤ n + 1 := hlen
            omega
          have heq2 : fixTags table (replace_tag table v ++ fixTags table rest) =
              replace_tag table v ++ fixTags table rest := by
            rw [hw1]
            have hassoc : (tagKey ++ w ++ ['"']) ++ fixTags table rest =
                tagKey ++ (w ++ '"' :: fixTags table rest) := by simp
            rw [hassoc]
            have hpre2 : isPre tagKey (tagKey ++ (w ++ '"' :: fixTags table rest)) = true :=
              isPre_append _ _
            have hsp2 : splitAtQuote
                (List.drop 6 (tagKey ++ (w ++ '"' :: fixTags table rest))) =
                some (w, fixTags table rest) := by
              have hd : List.drop 6 (tagKey ++ (w ++ '"' :: fixTags table rest)) =
                  w ++ '"' :: fixTags table rest := rfl
              rw [hd]
              exact splitAtQuote_complete w _ hw2
            rw [fixTags_cons_match table hpre2 hsp2, ih rest hrest, hw3]
            simp
          rw [heq1, heq2]
      · have hk' : isPre tagKey (c :: cs) = false := bool_eq_false hk
        have heq1 : fixTags table (c :: cs) = c :: fixTags table cs :=
          fixTags_cons_noKey table hk'
        rw [heq1]
        by_cases hk2 : isPre tagKey (c :: fixTags table cs) = true
        · exact absurd (tagKey_of_fix hk2) (by simp [hk'])
        · rw [fixTags_cons_noKey table (bool_eq_false hk2),
            ih cs (Nat.le_of_succ_le_succ hlen)]

theorem fixTags_idem (l : List Char) :
    fixTags table (fixTags table l) = fixTags table l :=
  fixTags_fix_aux l.length l (le_refl _)

/-! ### Decomposition of a scan into literal characters and matched tags

The scanner's single left-to-right pass partitions the input into
characters it copies verbatim and matched annotations it hands to
`replace_tag`.  `segments` computes that partition (its match structure is
exactly the scanner's and does not depend on the table); rendering the
partition with the identity gives back the input, rendering it with
`replace_tag` gives the scanner's output. -/

inductive Seg where
  | ch : Char → Seg
  | tag : List Char → Seg

def segsF : Nat → List Char → List Seg
  | 0, l => l.map Seg.ch
  | _ + 1, [] => []
  | f + 1, c :: cs =>
    if isPre tagKey (c :: cs) then
      match splitAtQuote (List.drop 6 (c :: cs)) with
      | some (v, rest) => Seg.tag v :: segsF f rest
      | none => Seg.ch c :: segsF f cs
    else Seg.ch c :: segsF f cs

def segments (l : List Char) : List Seg := segsF l.length l

def renderW (f : Seg → List Char) : List Seg → List Char
  | [] => []
  | s :: ss => f s ++ renderW f ss

/-- Rendering a segment as it stood in the input. -/
def renderOrigSeg : Seg → List Char
  | Seg.ch c => [c]
  | Seg.tag v => tagKey ++ v ++ ['"']

/-- Rendering a segment as the scanner emits it. -/
def renderNewSeg (tbl : List (List Char × List Char)) : Seg → List Char
  | Seg.ch c => [c]
  | Seg.tag v => replace_tag tbl v

theorem segsF_orig : ∀ n l, l.length ≤ n → renderW renderOrigSeg (segsF n l) = l := by
  intro n
  induction n with
  | zero =>
    intro l h
    have : l = [] := List.eq_nil_of_length_eq_zero (Nat.le_zero.1 h)
    subst this
    rfl
  | succ n ih =>
    intro l hlen
    cases l with
    | nil => rfl
    | cons c cs =>
      by_cases hk : isPre tagKey (c :: cs) = true
      · cases hsp : splitAtQuote (List.drop 6 (c :: cs)) with
        | none =>
          simp only [segsF, if_pos hk, hsp]
          show [c] ++ renderW renderOrigSeg (segsF n cs) = c :: cs
          rw [ih cs (Nat.le_of_succ_le_succ hlen)]
          rfl
        | some p =>
          obtain ⟨v, rest⟩ := p
          obtain ⟨hdec, _⟩ := splitAtQuote_sound _ _ _ hsp
          obtain ⟨r, hr⟩ := isPre_sound _ _ hk
          have hrd : List.drop 6 (c :: cs) = r := by rw [hr]; rfl
          have hrest : rest.length ≤ n := by
            have h1 : (List.drop 6 (c :: cs)).length ≤ cs.length := by
              simp [List.length_drop]
            have h2 : rest.length < (List.drop 6 (c :: cs)).length := by
              rw [hdec]
              simp [List.length_append]
              omega
            have h3 : cs.length + 1 ≤ n + 1 := hlen
            omega
          simp only [segsF, if_pos hk, hsp]
          show (tagKey ++ v ++ ['"']) ++ renderW renderOrigSeg (segsF n rest) = c :: cs
          rw [ih rest hrest, hr, ← hrd, hdec]
          simp
      · have hk' : isPre tagKey (c :: cs) = false := bool_eq_false hk
        simp only [segsF, hk']
        show [c] ++ renderW renderOrigSeg (segsF n cs) = c :: cs
        rw [ih cs (Nat.le_of_succ_le_succ hlen)]
        rfl

theorem segsF_new (tbl : List (List Char × List Char)) :
    ∀ n l, l.length ≤ n → renderW (renderNewSeg tbl) (segsF n l) = fixTags tbl l := by
  intro n
  induction n with
  | zero =>
    intro l h
    have : l = [] := List.eq_nil_of_length_eq_zero (Nat.le_zero.1 h)
    subst this
    rfl
  | succ n ih =>
    intro l hlen
    cases l with
    | nil => rfl
    | cons c cs =>
      by_cases hk : isPre tagKey (c :: cs) = true
      · cases hsp : splitAtQuote (List.drop 6 (c :: cs)) with
        | none =>
          simp only [segsF, if_pos hk, hsp]
          show [c] ++ renderW (renderNewSeg tbl) (segsF n cs) = fixTags tbl (c :: cs)
          rw [ih cs (Nat.le_of_succ_le_succ hlen), fixTags_cons_noQuote tbl hk hsp]
          rfl
        | some p =>
          obtain ⟨v, rest⟩ := p
          obtain ⟨hdec, _⟩ := splitAtQuote_sound _ _ _ hsp
          have hrest : rest.length ≤ n := by
            have h1 : (List.drop 6 (c :: cs)).length ≤ cs.length := by
              simp [List.length_drop]
            have h2 : rest.length < (List.drop 6 (c :: cs)).length := by
              rw [hdec]
              simp [List.length_append]
              omega
            have h3 : cs.length + 1 ≤ n + 1 := hlen
            omega
          simp only [segsF, if_pos hk, hsp]
          show replace_tag tbl v ++ renderW (renderNewSeg tbl) (segsF n rest) =
            fixTags tbl (c :: cs)
          rw [ih rest hrest, fixTags_cons_match tbl hk hsp]
      · have hk' : isPre tagKey (c :: cs) = false := bool_eq_false hk
        simp only [segsF, hk']
        show [c] ++ renderW (renderNewSeg tbl) (segsF n cs) = fixTags tbl (c :: cs)
        rw [ih cs (Nat.le_of_succ_le_succ hlen), fixTags_cons_noKey tbl hk']
        rfl

theorem segments_orig (l : List Char) : renderW renderOrigSeg (segments l) = l :=
  segsF_orig l.length l (le_refl _)

theorem segments_new (tbl : List (List Char × List Char)) (l : List Char) :
    renderW (renderNewSeg tbl) (segments l) = fixTags tbl l :=
  segsF_new tbl l.length l (le_refl _)

/-! ### The scanner consults the table only through lookups -/

theorem replace_tag_ext {t₁ t₂ : List (List Char × List Char)}
    (h : ∀ k, lookupTab t₁ k = lookupTab t₂ k) (v : List Char) :
    replace_tag t₁ v = replace_tag t₂ v := by
  simp only [replace_tag, h]

theorem fixTagsF_ext {t₁ t₂ : List (List Char × List Char)}
    (h : ∀ k, lookupTab t₁ k = lookupTab t₂ k) :
    ∀ f l, fixTagsF t₁ f l = fixTagsF t₂ f l := by
  intro f
  induction f with
  | zero => intro l; rfl
  | succ f ih =>
    intro l
    cases l with
    | nil => rfl
    | cons c cs =>
      simp only [fixTagsF]
      by_cases hk : isPre tagKey (c :: cs) = true
      · rw [if_pos hk, if_pos hk]
        cases hsp : splitAtQuote (List.drop 6 (c :: cs)) with
        | none => exact congrArg (c :: ·) (ih cs)
        | some p =>
          obtain ⟨v, rest⟩ := p
          show replace_tag t₁ v ++ fixTagsF t₁ f rest = replace_tag t₂ v ++ fixTagsF t₂ f rest
          rw [replace_tag_ext h v, ih rest]
      · rw [if_neg hk, if_neg hk]
        exact congrArg (c :: ·) (ih cs)

theorem fixTags_ext {t₁ t₂ : List (List Char × List Char)}
    (h : ∀ k, lookupTab t₁ k = lookupTab t₂ k) (l : List Char) :
    fixTags t₁ l = fixTags t₂ l :=
  fixTagsF_ext h l.length l

/-! ### Model of `main`

`main` globs `internal/models/*.go`, exits 1 when the glob is empty, and
otherwise loops over the sorted file list: read, transform with
`fix_json_tags`, write back only when the content changed, count
updated/skipped, and `sys.exit(1)` at the first exception raised while
handling a file.  Reading and writing are modelled by oracles returning
`Except`; the result is the exit code together with the list of writes
performed. -/

def fileOk (r : String → Except String String) (w : String → String → Except String Unit)
    (f : String) : Bool :=
  match r f with
  | Except.error _ => false
  | Except.ok c =>
    if fix_json_tags c != c then
      match w f (fix_json_tags c) with
      | Except.ok _ => true
      | Except.error _ => false
    else true

def processFiles (r : String → Except String String)
    (w : String → String → Except String Unit) : List String → Nat × List (String × String)
  | [] => (0, [])
  | f :: fs =>
    match r f with
    | Except.error _ => (1, [])
    | Except.ok c =>
      if fix_json_tags c != c then
        match w f (fix_json_tags c) with
        | Except.error _ => (1, [])
        | Except.ok _ =>
          ((processFiles r w fs).1, (f, fix_json_tags c) :: (processFiles r w fs).2)
      else processFiles r w fs

def sortInsert (s : String) : List String → List String
  | [] => [s]
  | t :: ts => if s ≤ t then s :: t :: ts else t :: sortInsert s ts

def sortFiles : List String → List String
  | [] => []
  | s :: ss => sortInsert s (sortFiles ss)

def main_model (r : String → Except String String)
    (w : String → String → Except String Unit) (globFiles : List String) :
    Nat × List (String × String) :=
  if globFiles = [] then (1, []) else processFiles r w (sortFiles globFiles)

/-- The writes the loop performs on a list of files it gets through:
one write per changed file, none for skipped or unreadable ones. -/
def expectedWrites (r : String → Except String String) : List String → List (String × String)
  | [] => []
  | f :: fs =>
    match r f with
    | Except.ok c =>
      if fix_json_tags c != c then (f, fix_json_tags c) :: expectedWrites r fs
      else expectedWrites r fs
    | Except.error _ => expectedWrites r fs

theorem processFiles_all_ok {r : String → Except String String}
    {w : String → String → Except String Unit} :
    ∀ fs, (∀ f ∈ fs, fileOk r w f = true) → processFiles r w fs = (0, expectedWrites r fs) := by
  intro fs
  induction fs with
  | nil => intro _; rfl
  | cons f fs ih =>
    intro h
    have hf : fileOk r w f = true := h f (List.mem_cons_self f fs)
    have hrest := ih (fun g hg => h g (List.mem_cons_of_mem f hg))
    cases hr : r f with
    | error e => simp [fileOk, hr] at hf
    | ok c =>
      simp only [fileOk, hr] at hf
      by_cases hch : (fix_json_tags c != c) = true
      · cases hw : w f (fix_json_tags c) with
        | error e => rw [if_pos hch] at hf; simp [hw] at hf
        | ok u => simp [processFiles, expectedWrites, hr, hch, hw, hrest]
      · have hch' : (fix_json_tags c != c) = false := bool_eq_false hch
        simp [processFiles, expectedWrites, hr, hch', hrest]

theorem processFiles_first_fail {r : String → Except String String}
    {w : String → String → Except String Unit} :
    ∀ good bad rest, (∀ f ∈ good, fileOk r w f = true) → fileOk r w bad = false →
      processFiles r w (good ++ bad :: rest) = (1, expectedWrites r good) := by
  intro good
  induction good with
  | nil =>
    intro bad rest _ hbad
    cases hr : r bad with
    | error e => simp [processFiles, hr, expectedWrites]
    | ok c =>
      simp only [fileOk, hr] at hbad
      by_cases hch : (fix_json_tags c != c) = true
      · cases hw : w bad (fix_json_tags c) with
        | ok u => rw [if_pos hch] at hbad; simp [hw] at hbad
        | error e => simp [processFiles, hr, hch, hw, expectedWrites]
      · have hch' : (fix_json_tags c != c) = false := bool_eq_false hch
        rw [hch'] at hbad
        simp at hbad
  | cons g good ih =>
    intro bad rest h hbad
    have hg : fileOk r w g = true := h g (List.mem_cons_self g good)
    have hrec := ih bad rest (fun f hf => h f (List.mem_cons_of_mem g hf)) hbad
    cases hr : r g with
    | error e => simp [fileOk, hr] at hg
    | ok c =>
      simp only [fileOk, hr] at hg
      by_cases hch : (fix_json_tags c != c) = true
      · cases hw : w g (fix_json_tags c) with
        | error e => rw [if_pos hch] at hg; simp [hw] at hg
        | ok u => simp [processFiles, expectedWrites, hr, hch, hw, hrec]
      · have hch' : (fix_json_tags c != c) = false := bool_eq_false hch
        simp [processFiles, expectedWrites, hr, hch', hrec]

/-! ### A single annotation in isolation -/

theorem fixTags_single (tbl : List (List Char × List Char)) {v : List Char} (hq : '"' ∉ v) :
    fixTags tbl (tagKey ++ v ++ ['"']) = replace_tag tbl v := by
  have hshape : tagKey ++ v ++ ['"'] = tagKey ++ (v ++ ['"']) := by simp
  have hpre : isPre tagKey (tagKey ++ v ++ ['"']) = true := by
    rw [hshape]
    exact isPre_append _ _
  have hsp : splitAtQuote (List.drop 6 (tagKey ++ v ++ ['"'])) = some (v, []) := by
    have hd : List.drop 6 (tagKey ++ v ++ ['"']) = v ++ ['"'] := by
      rw [hshape]
      rfl
    rw [hd]
    exact splitAtQuote_complete v [] hq
  rw [fixTags_cons_match tbl hpre hsp, fixTags_nil, List.append_nil]

/-! ## The claims -/

/-- C1, counterexample to the claim as stated.  The claim says a matched
value containing `,omitempty` is split into a base and the trailing
suffix `,omitempty`.  The value `,omitemptyagent_id` contains the marker
but does not decompose as `base ++ ",omitempty"`, yet the code still
rewrites the annotation: `replace` removes the marker from the front and
the reassembly appends it at the back. -/
theorem claim_C1_counterexample :
    containsOmit (",omitemptyagent_id").data = true ∧
    (¬ ∃ base : List Char, (",omitemptyagent_id").data = base ++ omitMarker) ∧
    fix_json_tags "json:\",omitemptyagent_id\"" = "json:\"agentId,omitempty\"" := by
  refine ⟨by decide, ?_, by decide⟩
  rintro ⟨base, hb⟩
  have h18 : (",omitemptyagent_id").data.length = 18 := by decide
  have h10 : omitMarker.length = 10 := by decide
  have hlen : base.length = 8 := by
    have hL := congrArg List.length hb
    rw [h18, List.length_append, h10] at hL
    omega
  have hdrop : List.drop 8 ((",omitemptyagent_id").data) = omitMarker := by
    rw [hb, ← hlen]
    exact List.drop_left base omitMarker
  exact absurd hdrop (by decide)

/-- C1, amended: for a matched annotation `json:"v"`, the base is `v`
with every occurrence of `,omitempty` removed (not a split at a trailing
suffix), the suffix `,omitempty` is appended exactly once when the marker
occurs anywhere in `v`, and a base found in the table is replaced with
its value followed by that suffix; in particular
`rewrite('json:"created_at,omitempty"')` yields
`'json:"createdAt,omitempty"'`. -/
theorem claim_C1 (v : List Char) (hq : '"' ∉ v) :
    (fixTags table (tagKey ++ v ++ ['"']) =
      match lookupTab table (if containsOmit v then removeOmit v else v) with
      | some nv => tagKey ++ nv ++ (if containsOmit v then omitMarker else []) ++ ['"']
      | none => tagKey ++ v ++ ['"']) ∧
    fix_json_tags "json:\"created_at,omitempty\"" = "json:\"createdAt,omitempty\"" := by
  constructor
  · rw [fixTags_single table hq]
    cases hlk : lookupTab table (if containsOmit v then removeOmit v else v) with
    | none => rw [replace_tag_of_none hlk]
    | some nv => rw [replace_tag_of_some hlk]
  · decide

/-- Witness for C1 at the concrete value `created_at,omitempty`. -/
theorem claim_C1_witness :
    fixTags table (tagKey ++ ("created_at,omitempty").data ++ ['"']) =
      tagKey ++ ("createdAt,omitempty").data ++ ['"'] := by
  have h := (claim_C1 ("created_at,omitempty").data (by decide)).1
  rw [h]
  decide

/-- C2: applying `rewrite` twice yields the same result as applying it
once, and the second application reports `changed = false`; the
no-key-equals-value invariant the claim assumes holds for the hardcoded
table (`table_vals`). -/
theorem claim_C2 (s : String) : rewrite (rewrite s).1 = ((rewrite s).1, false) := by
  have hidem : fix_json_tags (fix_json_tags s) = fix_json_tags s :=
    congrArg String.mk (fixTags_idem s.data)
  show (fix_json_tags (fix_json_tags s), fix_json_tags (fix_json_tags s) != fix_json_tags s) =
    (fix_json_tags s, false)
  rw [hidem, bne_self_eq_false]

/-- C3: for every key `base` of the table, rewriting `json:"base"` yields
`json:"table[base]"`, the output differs from the input, and `changed` is
true iff the output differs byte-for-byte from the input. -/
theorem claim_C3 {base nv : List Char} (hmem : (base, nv) ∈ table) :
    fixTags table (tagKey ++ base ++ ['"']) = tagKey ++ nv ++ ['"'] ∧
    tagKey ++ nv ++ ['"'] ≠ tagKey ++ base ++ ['"'] ∧
    ∀ s : String, ((rewrite s).2 = true ↔ (rewrite s).1 ≠ s) := by
  have hkeys := table_keys _ hmem
  have hne := table_no_self _ hmem
  have hco : containsOmit base = false := containsOmit_no_comma base hkeys.1
  have hlk : lookupTab table (if containsOmit base then removeOmit base else base) = some nv := by
    rw [hco]
    simp
    exact lookupTab_of_mem table base nv hmem table_nodup
  refine ⟨?_, ?_, ?_⟩
  · rw [fixTags_single table hkeys.2, replace_tag_of_some hlk, hco]
    simp
  · intro heq
    have h' : tagKey ++ (nv ++ ['"']) = tagKey ++ (base ++ ['"']) := by
      simpa [List.append_assoc] using heq
    have h1 : nv ++ ['"'] = base ++ ['"'] := List.append_cancel_left h'
    exact hne (List.append_cancel_right h1)
  · intro s
    show (fix_json_tags s != s) = true ↔ fix_json_tags s ≠ s
    exact bne_iff_ne

/-- Witness for C3 at the table entry `agent_id ↦ agentId`. -/
theorem claim_C3_witness :
    fixTags table (tagKey ++ ("agent_id").data ++ ['"']) =
      tagKey ++ ("agentId").data ++ ['"'] :=
  (claim_C3 (show ((("agent_id").data, ("agentId").data)) ∈ table by decide)).1

/-- C4: a matched annotation whose base (after option handling) is not a
table key is emitted unchanged, option suffix and all; in particular
`rewrite('json:"unknown_field,omitempty"')` leaves the text unchanged
with `changed = false`. -/
theorem claim_C4 (v : List Char) (hq : '"' ∉ v)
    (hnk : lookupTab table (if containsOmit v then removeOmit v else v) = none) :
    fixTags table (tagKey ++ v ++ ['"']) = tagKey ++ v ++ ['"'] ∧
    rewrite "json:\"unknown_field,omitempty\"" = ("json:\"unknown_field,omitempty\"", false) := by
  refine ⟨?_, ?_⟩
  · rw [fixTags_single table hq, replace_tag_of_none hnk]
  · decide

/-- Witness for C4 at the concrete value `unknown_field,omitempty`. -/
theorem claim_C4_witness :
    fixTags table (tagKey ++ ("unknown_field,omitempty").data ++ ['"']) =
      tagKey ++ ("unknown_field,omitempty").data ++ ['"'] :=
  (claim_C4 ("unknown_field,omitempty").data (by decide) (by decide)).1

/-- C5: several annotations in one buffer are rewritten independently in
a single left-to-right pass over non-overlapping matches: the output is
the segment decomposition of the input with each matched value sent
through `replace_tag` on its own, and
`rewrite('json:"agent_id" json:"device_id"')` yields
`'json:"agentId" json:"deviceId"'`. -/
theorem claim_C5 :
    fix_json_tags "json:\"agent_id\" json:\"device_id\"" =
      "json:\"agentId\" json:\"deviceId\"" ∧
    ∀ l : List Char, fixTags table l = renderW (renderNewSeg table) (segments l) :=
  ⟨by decide, fun l => (segments_new table l).symm⟩

/-- C6: the hardcoded table satisfies the no-key-equals-value invariant:
no replacement value is itself a key, and no key maps to itself. -/
theorem claim_C6 :
    (∀ p ∈ table, lookupTab table p.2 = none) ∧ ∀ p ∈ table, p.2 ≠ p.1 :=
  ⟨fun p hp => (table_vals p hp).2.2, table_no_self⟩

/-- Witness for C6 at the entry `agent_id ↦ agentId`. -/
theorem claim_C6_witness :
    lookupTab table ("agentId").data = none ∧ ("agentId").data ≠ ("agent_id").data :=
  ⟨claim_C6.1 (("agent_id").data, ("agentId").data) (by decide),
   claim_C6.2 (("agent_id").data, ("agentId").data) (by decide)⟩

/-- C7: the process exits 1 when the glob is empty (no file touched);
otherwise it walks the sorted file list, and either every file succeeds
and it exits 0 after writing exactly the changed files, or it exits 1 at
the first failing file, having written only the changed files before that
one and touched none after it. -/
theorem claim_C7 :
    (∀ r w, main_model r w [] = (1, [])) ∧
    (∀ r w files, files ≠ [] → main_model r w files = processFiles r w (sortFiles files)) ∧
    (∀ r w fs, (∀ f ∈ fs, fileOk r w f = true) →
      processFiles r w fs = (0, expectedWrites r fs)) ∧
    (∀ r w good bad rest, (∀ f ∈ good, fileOk r w f = true) → fileOk r w bad = false →
      processFiles r w (good ++ bad :: rest) = (1, expectedWrites r good)) := by
  refine ⟨fun r w => rfl, fun r w files hne => ?_, fun r w fs h => processFiles_all_ok fs h,
    fun r w good bad rest h hb => processFiles_first_fail good bad rest h hb⟩
  rw [main_model, if_neg hne]

/-- Witness for C7: one readable file whose single tag is renamed. -/
theorem claim_C7_witness :
    processFiles (fun _ => Except.ok "json:\"agent_id\"") (fun _ _ => Except.ok ())
      ["m.go"] = (0, [("m.go", "json:\"agentId\"")]) := by
  have h := claim_C7.2.2.1 (fun _ => Except.ok "json:\"agent_id\"")
    (fun _ _ => Except.ok ()) ["m.go"] (by decide)
  rw [h]
  decide

/-- C8: the rewrite is total (it is a Lean function, defined for every
input), and malformed input such as an unterminated quote produces no
match and passes through unchanged: text that is `json:"` followed by
quote-free characters is returned verbatim, as is the concrete buffer
`json:"created_at` even though `created_at` is a table key. -/
theorem claim_C8 (r : List Char) (h : '"' ∉ r) :
    fixTags table (tagKey ++ r) = tagKey ++ r ∧
    fix_json_tags "json:\"created_at" = "json:\"created_at" :=
  ⟨fixTags_tagKey_no_close table h, by decide⟩

/-- Witness for C8 at the unterminated buffer `json:"created_at`. -/
theorem claim_C8_witness :
    fixTags table (tagKey ++ ("created_at").data) = tagKey ++ ("created_at").data :=
  (claim_C8 ("created_at").data (by decide)).1

/-- C9: the rewrite is a deterministic pure function of the pair (text,
table): it consults the table only through lookups, so two tables with
the same lookup behaviour give identical outputs on every text, and the
same (text, table) pair always produces the same output. -/
theorem claim_C9 (t₁ t₂ : List (List Char × List Char))
    (h : ∀ k, lookupTab t₁ k = lookupTab t₂ k) :
    (∀ l, fixTags t₁ l = fixTags t₂ l) ∧ ∀ s : String, rewrite s = rewrite s :=
  ⟨fixTags_ext h, fun _ => rfl⟩

/-- Witness for C9 with both tables instantiated at the hardcoded one. -/
theorem claim_C9_witness :
    fixTags table ("json:\"agent_id\"").data = fixTags table ("json:\"agent_id\"").data :=
  (claim_C9 table table (fun _ => rfl)).1 ("json:\"agent_id\"").data

/-- C10: frame property of the scan.  The input decomposes into literal
characters and matched annotations; rendering the decomposition
unchanged gives back the input, rendering it with `replace_tag` gives
the output, and literal (non-matched) characters render identically in
both, so they appear unchanged and in the same relative order. -/
theorem claim_C10 (l : List Char) :
    renderW renderOrigSeg (segments l) = l ∧
    renderW (renderNewSeg table) (segments l) = fixTags table l ∧
    ∀ c : Char, renderNewSeg table (Seg.ch c) = renderOrigSeg (Seg.ch c) :=
  ⟨segments_orig l, segments_new table l, fun _ => rfl⟩

end FixTagsSpec
